import Mathlib

/-!
# Verification of the SentimentDelta scraping and storage pipeline

A shallow embedding, in Lean 4, of the crawl/extract/normalize/store
pathway of the SentimentDelta scripts repository, together with proofs of
the behavioural properties claimed by its specification.

Conventions of the embedding:
* Python strings are `List Char`; `pyLower`, `pyUpper` and `pyStrip`
  model `str.lower()`, `str.upper()` and `str.strip()`.
* Wall-clock time is an integer number of seconds; a calendar date is the
  integer obtained by floor-dividing seconds by 86400 (`dateOfSec`),
  which models `strftime('%Y-%m-%d')` / `datetime.date()` truncation.
* `re.search` over the concrete patterns used by the scripts is modelled
  by an executable leftmost-match scanner (`reSearch` for the plain
  `(\d+)<literal>` patterns of the time parser, and a small token matcher
  `matchToks`/`reFound` for the `\s*` / `s?` patterns of the scroll stop
  check).
* Fallible operations return `Option`/`Except`; external capabilities
  (HTTP pages, rendered HTML snapshots, article bodies, crawl results)
  are explicit function parameters.
-/

/-! ## Basic text utilities -/

/-- Model of Python `str.lower()` (ASCII case folding). -/
def pyLower (s : List Char) : List Char := s.map Char.toLower

/-- Model of Python `str.upper()` (ASCII case folding). -/
def pyUpper (s : List Char) : List Char := s.map Char.toUpper

/-- Model of Python `str.strip()`: drop leading and trailing whitespace. -/
def pyStrip (s : List Char) : List Char :=
  ((s.dropWhile Char.isWhitespace).reverse.dropWhile Char.isWhitespace).reverse

/-- Numeric value of a digit string, as computed by Python `int()`. -/
def digitsToNat (ds : List Char) : Nat :=
  ds.foldl (fun a c => 10 * a + (c.toNat - 48)) 0

/-- Truncate a timestamp in seconds to its calendar date (day index),
modelling `strftime('%Y-%m-%d')` / `.date()`. -/
def dateOfSec (t : Int) : Int := Int.fdiv t 86400

/-! ## Time Parser (`parse_relative_time_to_date`, src/scrape_yahoo_finance.py)

Each Python pattern `(\d+)<tail>` (with `x?` expanded into its two
alternatives) is modelled as the list of its alternative literal tails.
`matchHere` models an anchored regex match attempt at the current
position: a maximal nonempty digit run followed by one of the tails.
`reSearch` models `re.search`: try every position left to right. -/

/-- Anchored match of `(\d+)<tail>` at the head of `s`, for a pattern whose
alternative literal tails are `tails`; returns the captured number. -/
def matchHere (tails : List (List Char)) (s : List Char) : Option Nat :=
  let ds := s.takeWhile Char.isDigit
  if ds = [] then none
  else if tails.any (fun t => t.isPrefixOf (s.drop ds.length)) then
    some (digitsToNat ds)
  else none

/-- Model of `re.search` for a `(\d+)<tail>` pattern: leftmost position
where an anchored match succeeds. -/
def reSearch (tails : List (List Char)) : List Char → Option Nat
  | [] => none
  | c :: cs =>
    match matchHere tails (c :: cs) with
    | some n => some n
    | none => reSearch tails cs

/-- Try a list of patterns in order, returning the first `re.search` hit,
modelling the `for pattern in ...: if match: return` loops. -/
def firstMatch (pats : List (List (List Char))) (s : List Char) : Option Nat :=
  match pats with
  | [] => none
  | p :: ps =>
    match reSearch p s with
    | some n => some n
    | none => firstMatch ps s

/-- The three day patterns `(\d+)d ago`, `(\d+) days? ago`, `(\d+) day ago`. -/
def dayPats : List (List (List Char)) :=
  [["d ago".toList],
   [" days ago".toList, " day ago".toList],
   [" day ago".toList]]

/-- The three hour patterns `(\d+) hrs? ago`, `(\d+) hours? ago`, `(\d+) hour ago`. -/
def hourPats : List (List (List Char)) :=
  [[" hrs ago".toList, " hr ago".toList],
   [" hours ago".toList, " hour ago".toList],
   [" hour ago".toList]]

/-- The three minute patterns `(\d+) mins? ago`, `(\d+) minutes? ago`, `(\d+) minute ago`. -/
def minutePats : List (List (List Char)) :=
  [[" mins ago".toList, " min ago".toList],
   [" minutes ago".toList, " minute ago".toList],
   [" minute ago".toList]]

/-- Model of `parse_relative_time_to_date(time_text)`: lowercases and strips
the text, tries day patterns, then hour patterns, then minute patterns, and
returns the date of `now` minus the matched amount; the date of `now` itself
when nothing matches.  `now` (seconds) is the explicit model of
`datetime.now()`. -/
def parse_relative_time_to_date (now : Int) (time_text : List Char) : Int :=
  let t := pyStrip (pyLower time_text)
  match firstMatch dayPats t with
  | some n => dateOfSec (now - n * 86400)
  | none =>
    match firstMatch hourPats t with
    | some n => dateOfSec (now - n * 3600)
    | none =>
      match firstMatch minutePats t with
      | some n => dateOfSec (now - n * 60)
      | none => dateOfSec now

/-- The recognized relative-time unit spellings. -/
inductive RelUnit
  | d | day | days | hr | hrs | hour | hours | minU | mins | minute | minutes
deriving DecidableEq

/-- The literal text following the numeric magnitude for each unit spelling
(for `d` the digits abut the unit; all others are space separated). -/
def unitSuffix : RelUnit → List Char
  | .d => "d ago".toList
  | .day => " day ago".toList
  | .days => " days ago".toList
  | .hr => " hr ago".toList
  | .hrs => " hrs ago".toList
  | .hour => " hour ago".toList
  | .hours => " hours ago".toList
  | .minU => " min ago".toList
  | .mins => " mins ago".toList
  | .minute => " minute ago".toList
  | .minutes => " minutes ago".toList

/-- Seconds per unit. -/
def unitSeconds : RelUnit → Int
  | .d | .day | .days => 86400
  | .hr | .hrs | .hour | .hours => 3600
  | .minU | .mins | .minute | .minutes => 60

/-! ### Lemmas about the leftmost-match scanner -/

theorem takeWhile_digits_append (ds suffix : List Char)
    (hdig : ∀ c ∈ ds, c.isDigit = true)
    (hsuf : suffix.takeWhile Char.isDigit = []) :
    (ds ++ suffix).takeWhile Char.isDigit = ds := by
  induction ds with
  | nil => simpa using hsuf
  | cons c cs ih =>
    have hc : c.isDigit = true := hdig c (by simp)
    simp only [List.cons_append, List.takeWhile_cons, hc, if_true]
    rw [ih (fun x hx => hdig x (by simp [hx]))]

theorem matchHere_digits (tails : List (List Char)) (ds suffix : List Char)
    (hne : ds ≠ []) (hdig : ∀ c ∈ ds, c.isDigit = true)
    (hsuf : suffix.takeWhile Char.isDigit = [])
    (hany : tails.any (fun t => t.isPrefixOf suffix) = true) :
    matchHere tails (ds ++ suffix) = some (digitsToNat ds) := by
  simp only [matchHere, takeWhile_digits_append ds suffix hdig hsuf]
  rw [List.drop_left]
  simp [hne, hany]

theorem matchHere_notail (tails : List (List Char)) (ds suffix : List Char)
    (hdig : ∀ c ∈ ds, c.isDigit = true)
    (hsuf : suffix.takeWhile Char.isDigit = [])
    (hany : tails.any (fun t => t.isPrefixOf suffix) = false) :
    matchHere tails (ds ++ suffix) = none := by
  simp only [matchHere, takeWhile_digits_append ds suffix hdig hsuf]
  rw [List.drop_left]
  simp [hany]

theorem reSearch_digits_found (tails : List (List Char)) (ds suffix : List Char)
    (hne : ds ≠ []) (hdig : ∀ c ∈ ds, c.isDigit = true)
    (hsuf : suffix.takeWhile Char.isDigit = [])
    (hany : tails.any (fun t => t.isPrefixOf suffix) = true) :
    reSearch tails (ds ++ suffix) = some (digitsToNat ds) := by
  match ds, hne with
  | c :: cs, _ =>
    have h := matchHere_digits tails (c :: cs) suffix (by simp) hdig hsuf hany
    simp only [List.cons_append] at h ⊢
    simp [reSearch, h]

theorem reSearch_append_none (tails : List (List Char)) (ds suffix : List Char)
    (hdig : ∀ c ∈ ds, c.isDigit = true)
    (hsuf : suffix.takeWhile Char.isDigit = [])
    (hany : tails.any (fun t => t.isPrefixOf suffix) = false)
    (hnone : reSearch tails suffix = none) :
    reSearch tails (ds ++ suffix) = none := by
  induction ds with
  | nil => simpa using hnone
  | cons c cs ih =>
    have h := matchHere_notail tails (c :: cs) suffix hdig hsuf hany
    simp only [List.cons_append] at h ⊢
    simp only [reSearch, h]
    exact ih (fun x hx => hdig x (by simp [hx]))

theorem firstMatch_cons_some {p : List (List Char)} {ps : List (List (List Char))}
    {s : List Char} {n : Nat} (h : reSearch p s = some n) :
    firstMatch (p :: ps) s = some n := by
  simp [firstMatch, h]

theorem firstMatch_cons_none {p : List (List Char)} {ps : List (List (List Char))}
    {s : List Char} (h : reSearch p s = none) :
    firstMatch (p :: ps) s = firstMatch ps s := by
  simp [firstMatch, h]

theorem firstMatch_append_none (pats : List (List (List Char))) (ds suffix : List Char)
    (hdig : ∀ c ∈ ds, c.isDigit = true)
    (hsuf : suffix.takeWhile Char.isDigit = [])
    (hp : ∀ p ∈ pats, p.any (fun t => t.isPrefixOf suffix) = false
            ∧ reSearch p suffix = none) :
    firstMatch pats (ds ++ suffix) = none := by
  induction pats with
  | nil => rfl
  | cons p ps ih =>
    have h1 := hp p (by simp)
    rw [firstMatch_cons_none (reSearch_append_none p ds suffix hdig hsuf h1.1 h1.2)]
    exact ih (fun q hq => hp q (by simp [hq]))

theorem parse_rel_day {now : Int} {s ds suffix : List Char} {n : Nat}
    (hs : pyStrip (pyLower s) = ds ++ suffix)
    (h : firstMatch dayPats (ds ++ suffix) = some n) :
    parse_relative_time_to_date now s = dateOfSec (now - n * 86400) := by
  unfold parse_relative_time_to_date
  rw [hs]
  simp only [h]

theorem parse_rel_hour {now : Int} {s ds suffix : List Char} {n : Nat}
    (hs : pyStrip (pyLower s) = ds ++ suffix)
    (hd : firstMatch dayPats (ds ++ suffix) = none)
    (h : firstMatch hourPats (ds ++ suffix) = some n) :
    parse_relative_time_to_date now s = dateOfSec (now - n * 3600) := by
  unfold parse_relative_time_to_date
  rw [hs]
  simp only [hd, h]

theorem parse_rel_minute {now : Int} {s ds suffix : List Char} {n : Nat}
    (hs : pyStrip (pyLower s) = ds ++ suffix)
    (hd : firstMatch dayPats (ds ++ suffix) = none)
    (hh : firstMatch hourPats (ds ++ suffix) = none)
    (h : firstMatch minutePats (ds ++ suffix) = some n) :
    parse_relative_time_to_date now s = dateOfSec (now - n * 60) := by
  unfold parse_relative_time_to_date
  rw [hs]
  simp only [hd, hh, h]

/-- **C1**: for every relative-time string of the recognized form
`<n> <unit> ago` (unit ∈ {d/day/days, hr/hrs/hour/hours,
min/mins/minute/minutes}), `parse_relative_time_to_date` returns the
calendar date of `now - n * unit`, case-insensitively, with day patterns
tried before hour patterns before minute patterns and the first matching
pattern winning. -/
theorem parse_relative_time_to_date_correct (now : Int) (s ds : List Char) (u : RelUnit)
    (hne : ds ≠ []) (hdig : ∀ c ∈ ds, c.isDigit = true)
    (hs : pyStrip (pyLower s) = ds ++ unitSuffix u) :
    parse_relative_time_to_date now s =
      dateOfSec (now - (digitsToNat ds : Int) * unitSeconds u) := by
  cases u
  case d =>
    simp only [unitSuffix] at hs
    exact parse_rel_day hs
      (firstMatch_cons_some (reSearch_digits_found _ ds _ hne hdig (by decide) (by decide)))
  case day =>
    simp only [unitSuffix] at hs
    refine parse_rel_day hs ?_
    show firstMatch [["d ago".toList], [" days ago".toList, " day ago".toList],
      [" day ago".toList]] _ = _
    rw [firstMatch_cons_none (reSearch_append_none _ ds _ hdig (by decide) (by decide) (by decide))]
    exact firstMatch_cons_some (reSearch_digits_found _ ds _ hne hdig (by decide) (by decide))
  case days =>
    simp only [unitSuffix] at hs
    refine parse_rel_day hs ?_
    show firstMatch [["d ago".toList], [" days ago".toList, " day ago".toList],
      [" day ago".toList]] _ = _
    rw [firstMatch_cons_none (reSearch_append_none _ ds _ hdig (by decide) (by decide) (by decide))]
    exact firstMatch_cons_some (reSearch_digits_found _ ds _ hne hdig (by decide) (by decide))
  case hr =>
    simp only [unitSuffix] at hs
    refine parse_rel_hour hs
      (firstMatch_append_none dayPats ds _ hdig (by decide) (by decide)) ?_
    exact firstMatch_cons_some (reSearch_digits_found _ ds _ hne hdig (by decide) (by decide))
  case hrs =>
    simp only [unitSuffix] at hs
    refine parse_rel_hour hs
      (firstMatch_append_none dayPats ds _ hdig (by decide) (by decide)) ?_
    exact firstMatch_cons_some (reSearch_digits_found _ ds _ hne hdig (by decide) (by decide))
  case hour =>
    simp only [unitSuffix] at hs
    refine parse_rel_hour hs
      (firstMatch_append_none dayPats ds _ hdig (by decide) (by decide)) ?_
    show firstMatch [[" hrs ago".toList, " hr ago".toList],
      [" hours ago".toList, " hour ago".toList], [" hour ago".toList]] _ = _
    rw [firstMatch_cons_none (reSearch_append_none _ ds _ hdig (by decide) (by decide) (by decide))]
    exact firstMatch_cons_some (reSearch_digits_found _ ds _ hne hdig (by decide) (by decide))
  case hours =>
    simp only [unitSuffix] at hs
    refine parse_rel_hour hs
      (firstMatch_append_none dayPats ds _ hdig (by decide) (by decide)) ?_
    show firstMatch [[" hrs ago".toList, " hr ago".toList],
      [" hours ago".toList, " hour ago".toList], [" hour ago".toList]] _ = _
    rw [firstMatch_cons_none (reSearch_append_none _ ds _ hdig (by decide) (by decide) (by decide))]
    exact firstMatch_cons_some (reSearch_digits_found _ ds _ hne hdig (by decide) (by decide))
  case minU =>
    simp only [unitSuffix] at hs
    refine parse_rel_minute hs
      (firstMatch_append_none dayPats ds _ hdig (by decide) (by decide))
      (firstMatch_append_none hourPats ds _ hdig (by decide) (by decide)) ?_
    exact firstMatch_cons_some (reSearch_digits_found _ ds _ hne hdig (by decide) (by decide))
  case mins =>
    simp only [unitSuffix] at hs
    refine parse_rel_minute hs
      (firstMatch_append_none dayPats ds _ hdig (by decide) (by decide))
      (firstMatch_append_none hourPats ds _ hdig (by decide) (by decide)) ?_
    exact firstMatch_cons_some (reSearch_digits_found _ ds _ hne hdig (by decide) (by decide))
  case minute =>
    simp only [unitSuffix] at hs
    refine parse_rel_minute hs
      (firstMatch_append_none dayPats ds _ hdig (by decide) (by decide))
      (firstMatch_append_none hourPats ds _ hdig (by decide) (by decide)) ?_
    show firstMatch [[" mins ago".toList, " min ago".toList],
      [" minutes ago".toList, " minute ago".toList], [" minute ago".toList]] _ = _
    rw [firstMatch_cons_none (reSearch_append_none _ ds _ hdig (by decide) (by decide) (by decide))]
    exact firstMatch_cons_some (reSearch_digits_found _ ds _ hne hdig (by decide) (by decide))
  case minutes =>
    simp only [unitSuffix] at hs
    refine parse_rel_minute hs
      (firstMatch_append_none dayPats ds _ hdig (by decide) (by decide))
      (firstMatch_append_none hourPats ds _ hdig (by decide) (by decide)) ?_
    show firstMatch [[" mins ago".toList, " min ago".toList],
      [" minutes ago".toList, " minute ago".toList], [" minute ago".toList]] _ = _
    rw [firstMatch_cons_none (reSearch_append_none _ ds _ hdig (by decide) (by decide) (by decide))]
    exact firstMatch_cons_some (reSearch_digits_found _ ds _ hne hdig (by decide) (by decide))

/-- Witness for C1: the concrete (mixed-case) input `"3D AGO"` resolves to
the date three days before `now`. -/
theorem parse_relative_time_to_date_correct_witness :
    parse_relative_time_to_date 1000000 ("3D AGO".toList) =
      dateOfSec (1000000 - (digitsToNat ("3".toList) : Int) * unitSeconds RelUnit.d) :=
  parse_relative_time_to_date_correct 1000000 ("3D AGO".toList) ("3".toList) RelUnit.d
    (by decide) (by decide) (by decide)

/-! ## Page Extractor (`extract_news_item`, src/scrape_yahoo_finance.py)

A stream item is abstracted by what the three `item.find` calls can
return: the headline element's text, the headline anchor (which may or
may not carry an `href` attribute), and the publishing `div`'s text.
`get_text(strip=True)` is modelled by applying `pyStrip` to the stored
element text. -/

/-- One `li.stream-item`, as seen by `extract_news_item`. -/
structure NewsItem where
  /-- Text of the `h3` clamp headline element, when such an element exists. -/
  headline : Option (List Char)
  /-- The `a[data-ylk*=hdln]` anchor, when present; the inner option is its
  `href` attribute (`link.get('href')` may be `None`). -/
  link : Option (Option (List Char))
  /-- Text of the `div.publishing` element, when present. -/
  timeText : Option (List Char)
deriving DecidableEq

/-- Output record of `extract_news_item` (the keys the code may set). -/
structure NewsData where
  title : Option (List Char)
  url : Option (List Char)
  timestamp : Option (List Char)
  date : Option Int
  tickers : List Char
deriving DecidableEq

/-- Base origin prepended to relative Yahoo links. -/
def yahooBase : List Char := "https://ca.finance.yahoo.com".toList

/-- The timestamp text: `time_text.split('•')[-1].strip()` when a bullet is
present, the raw text otherwise. -/
def tsTextOf (time_text : List Char) : List Char :=
  if time_text.contains '•' then pyStrip ((time_text.splitOn '•').getLastD [])
  else time_text

/-- The `data['url']` value: absolute hrefs kept, relative ones prefixed
with the Yahoo origin; absent when no anchor was found. -/
def yahooUrlOf (it : NewsItem) : Option (List Char) :=
  match it.link with
  | some (some u) => some (if "http".toList.isPrefixOf u then u else yahooBase ++ u)
  | _ => none

/-- Final `return data if data.get('title') else None`: a record is returned
only when the title key is present and non-empty. -/
def finalizeItem (d : NewsData) : Option NewsData :=
  match d.title with
  | some t => if t = [] then none else some d
  | none => none

/-- Model of `extract_news_item(item, symbol, target_days, exact_day_only)`.
When the headline anchor exists but has no `href`, `url.startswith` raises
`AttributeError` and the bare `except` returns `None`.  The per-item stop
filter runs only inside the branch where a publish-time element was found. -/
def extract_news_item (now : Int) (it : NewsItem) (symbol : List Char)
    (target_days : Option Int) (exact_day_only : Bool) : Option NewsData :=
  match it.link with
  | some none => none
  | _ =>
    let title := it.headline.map pyStrip
    let url := yahooUrlOf it
    match it.timeText with
    | none =>
      finalizeItem { title := title, url := url, timestamp := none, date := none,
                     tickers := symbol }
    | some raw =>
      let time_text := pyStrip raw
      let ts := tsTextOf time_text
      let dt := parse_relative_time_to_date now ts
      match target_days with
      | none =>
        finalizeItem { title := title, url := url, timestamp := some ts,
                       date := some dt, tickers := symbol }
      | some tgt =>
        let delta := dateOfSec now - dt
        if exact_day_only = true ∧ delta ≠ tgt then none
        else if exact_day_only = false ∧ tgt ≤ delta then none
        else
          finalizeItem { title := title, url := url, timestamp := some ts,
                         date := some dt, tickers := symbol }


/-- Evaluation of `extract_news_item` in the branch where a publish-time
element was found (and the anchor, if any, carries an `href`). -/
theorem extract_news_item_time_eval (now : Int) (it : NewsItem) (symbol : List Char)
    (tgt : Int) (exact : Bool) (raw : List Char)
    (hlink : it.link ≠ some none) (htime : it.timeText = some raw) :
    extract_news_item now it symbol (some tgt) exact =
      (let ts := tsTextOf (pyStrip raw)
       let dt := parse_relative_time_to_date now ts
       let delta := dateOfSec now - dt
       if exact = true ∧ delta ≠ tgt then none
       else if exact = false ∧ tgt ≤ delta then none
       else finalizeItem ⟨it.headline.map pyStrip, yahooUrlOf it, some ts, some dt, symbol⟩) := by
  unfold extract_news_item
  rcases hL : it.link with _ | u2
  · rw [htime]
  · rcases u2 with _ | u
    · exact absurd hL hlink
    · rw [htime]

/-- **C2**: on an item with a usable headline and anchor whose publish time
resolves to an age of `delta` days, the stop filter excludes the item
exactly when `delta ≠ target_days` (exact mode) respectively
`delta ≥ target_days` (non-exact mode). -/
theorem extract_news_item_stop_filter (now : Int) (it : NewsItem) (symbol : List Char)
    (tgt : Int) (exact : Bool) (raw : List Char) (delta : Int)
    (htitle : ∃ h, it.headline = some h ∧ pyStrip h ≠ [])
    (hlink : it.link ≠ some none)
    (htime : it.timeText = some raw)
    (hdelta : delta = dateOfSec now -
      parse_relative_time_to_date now (tsTextOf (pyStrip raw))) :
    (exact = true →
      (extract_news_item now it symbol (some tgt) exact = none ↔ delta ≠ tgt))
    ∧ (exact = false →
      (extract_news_item now it symbol (some tgt) exact = none ↔ tgt ≤ delta)) := by
  obtain ⟨h, hh, hne⟩ := htitle
  have hfin : finalizeItem ⟨it.headline.map pyStrip, yahooUrlOf it,
      some (tsTextOf (pyStrip raw)),
      some (parse_relative_time_to_date now (tsTextOf (pyStrip raw))), symbol⟩ ≠ none := by
    rw [hh]
    simp [finalizeItem, hne]
  subst hdelta
  constructor <;> intro hex <;> subst hex <;>
    rw [extract_news_item_time_eval now it symbol tgt _ raw hlink htime]
  · by_cases hd : dateOfSec now - parse_relative_time_to_date now (tsTextOf (pyStrip raw)) = tgt
    · simp [hd, hfin]
    · simp [hd]
  · by_cases hd : tgt ≤ dateOfSec now - parse_relative_time_to_date now (tsTextOf (pyStrip raw))
    · simp [hd]
    · simp [hd, hfin]

/-- Concrete item used by the C2 witness. -/
def yahooItemW : NewsItem :=
  { headline := some "Stock rises 5%".toList,
    link := none,
    timeText := some "Reuters • 2 days ago".toList }

/-- Witness for C2: at `now` = day 10, an item published "2 days ago" has
age exactly 2 and is kept by the exact-mode filter with `target_days = 2`. -/
theorem extract_news_item_stop_filter_witness :
    extract_news_item 864000 yahooItemW "AAPL".toList (some 2) true = none ↔ (2 : Int) ≠ 2 :=
  (extract_news_item_stop_filter 864000 yahooItemW "AAPL".toList 2 true
      ("Reuters • 2 days ago".toList) 2
      ⟨"Stock rises 5%".toList, rfl, by decide⟩ (by decide) rfl (by decide)).1 rfl

/-- **C9**: the per-item stop filter is evaluated only inside the branch
where a publish-time element was found: an item with a non-empty headline,
a usable anchor and no publish-time element is kept for every
`target_days`/`exact_day_only` setting, with no timestamp or date fields. -/
theorem extract_news_item_no_time_kept (now : Int) (it : NewsItem) (symbol : List Char)
    (target_days : Option Int) (exact : Bool)
    (htitle : ∃ h, it.headline = some h ∧ pyStrip h ≠ [])
    (hlink : it.link ≠ some none)
    (htime : it.timeText = none) :
    extract_news_item now it symbol target_days exact =
      some ⟨it.headline.map pyStrip, yahooUrlOf it, none, none, symbol⟩ := by
  obtain ⟨h, hh, hne⟩ := htitle
  unfold extract_news_item
  rcases hL : it.link with _ | u2
  · rw [htime, hh]
    simp [finalizeItem, hne]
  · rcases u2 with _ | u
    · exact absurd hL hlink
    · rw [htime, hh]
      simp [finalizeItem, hne]

/-- Concrete item used by the C9 witness. -/
def yahooItemNoTimeW : NewsItem :=
  { headline := some "Stock rises 5%".toList,
    link := some (some "/news/stock-rises".toList),
    timeText := none }

/-- Witness for C9: a titled item without a publish-time element is kept
even under a strict exact-day filter. -/
theorem extract_news_item_no_time_kept_witness :
    extract_news_item 864000 yahooItemNoTimeW "AAPL".toList (some 5) true =
      some ⟨yahooItemNoTimeW.headline.map pyStrip, yahooUrlOf yahooItemNoTimeW,
            none, none, "AAPL".toList⟩ :=
  extract_news_item_no_time_kept 864000 yahooItemNoTimeW "AAPL".toList (some 5) true
    ⟨"Stock rises 5%".toList, rfl, by decide⟩ (by decide) rfl

/-! ## Scroll Controller (`check_target_days` and the scroll loop of
`scrape_yahoo_finance_news`, src/scrape_yahoo_finance.py)

The stop-check patterns use `\s*` and `s?`, so they are modelled as token
lists: literal characters, an optional character, and a whitespace-star.
`matchToks` is an anchored matcher (boolean backtracking semantics) and
`reFound` tries every position, modelling `re.search`; `re.IGNORECASE`
is modelled by lowercasing the page source (all pattern literals are
already lowercase). -/

/-- A regex token of the stop-check patterns. -/
inductive RTok
  | lit (c : Char)
  | opt (c : Char)
  | wstar
deriving DecidableEq

/-- All suffixes of `s` reachable by consuming leading whitespace (the
candidate continuations of a `\s*`). -/
def wsSuffixes : List Char → List (List Char)
  | [] => [[]]
  | c :: cs => (c :: cs) :: (if c.isWhitespace then wsSuffixes cs else [])

/-- Anchored token-list match at the head of the text. -/
def matchToks : List RTok → List Char → Bool
  | [], _ => true
  | .lit _ :: _, [] => false
  | .lit c :: ts, x :: xs => x == c && matchToks ts xs
  | .opt c :: ts, s =>
    (match s with
     | x :: xs => x == c && matchToks ts xs
     | [] => false) || matchToks ts s
  | .wstar :: ts, s => (wsSuffixes s).any (fun s2 => matchToks ts s2)

/-- Model of `re.search` for a token pattern: match at any position. -/
def reFound (ts : List RTok) : List Char → Bool
  | [] => matchToks ts []
  | x :: xs => matchToks ts (x :: xs) || reFound ts xs

/-- Literal characters as tokens. -/
def litToks (s : List Char) : List RTok := s.map RTok.lit

/-- Decimal digit characters of `n`, modelling the f-string interpolation. -/
def natDigits (n : Nat) : List Char := Nat.toDigits 10 n

/-- The `target_days == 0` stop patterns: `1d ago`, `1 day ago`,
`1\s*d\s*ago`, `1\s*day\s*ago`. -/
def oneDayPats : List (List RTok) :=
  [litToks "1d ago".toList,
   litToks "1 day ago".toList,
   [.lit '1', .wstar, .lit 'd', .wstar] ++ litToks "ago".toList,
   [.lit '1', .wstar] ++ litToks "day".toList ++ [.wstar] ++ litToks "ago".toList]

/-- The `target_days > 0` stop patterns: `{n}d ago`, `{n} days ago`,
`{n}\s*d\s*ago`, `{n}\s*days?\s*ago`. -/
def nDayPats (n : Nat) : List (List RTok) :=
  [litToks (natDigits n ++ "d ago".toList),
   litToks (natDigits n ++ " days ago".toList),
   litToks (natDigits n) ++ [.wstar, .lit 'd', .wstar] ++ litToks "ago".toList,
   litToks (natDigits n) ++ [.wstar] ++ litToks "day".toList
     ++ [.opt 's', .wstar] ++ litToks "ago".toList]

/-- Model of `check_target_days(html_content, target_days)`. -/
def check_target_days (html : List Char) (target_days : Nat) : Bool :=
  let h := pyLower html
  if target_days = 0 then oneDayPats.any (fun p => reFound p h)
  else (nDayPats target_days).any (fun p => reFound p h)

/-- The scroll loop of `scrape_yahoo_finance_news`: at iteration `i` the
stop check runs on the page source after `i` scrolls; on success the loop
stops, otherwise it scrolls once more, up to `fuel` iterations. -/
def scrollGo (check1 : Nat → Bool) : Nat → Nat → Bool × Nat
  | i, 0 => (false, i)
  | i, fuel + 1 => if check1 i then (true, i) else scrollGo check1 (i + 1) fuel

/-- Model of the whole scroll phase: `target_found` together with the number
of completed scrolls when the loop stopped.  The check is called with
`0 if target_days == 0 else target_days + 1`, exactly as in the source. -/
def scrollLoop (htmlAt : Nat → List Char) (target_days max_scrolls : Nat) : Bool × Nat :=
  scrollGo
    (fun i => check_target_days (htmlAt i) (if target_days = 0 then 0 else target_days + 1))
    0 max_scrolls

theorem scrollGo_found_iff (c : Nat → Bool) (fuel : Nat) : ∀ i,
    ((scrollGo c i fuel).1 = true ↔ ∃ j, i ≤ j ∧ j < i + fuel ∧ c j = true) := by
  induction fuel with
  | zero =>
    intro i
    constructor
    · intro h; exact absurd h (by simp [scrollGo])
    · rintro ⟨j, h1, h2, _⟩; omega
  | succ fuel ih =>
    intro i
    have hstep : scrollGo c i (fuel + 1)
        = if c i then (true, i) else scrollGo c (i + 1) fuel := rfl
    by_cases hci : c i = true
    · rw [hstep, if_pos hci]
      exact iff_of_true rfl ⟨i, le_refl i, by omega, hci⟩
    · rw [hstep, if_neg hci, ih (i + 1)]
      constructor
      · rintro ⟨j, h1, h2, h3⟩
        exact ⟨j, by omega, by omega, h3⟩
      · rintro ⟨j, h1, h2, h3⟩
        refine ⟨j, ?_, by omega, h3⟩
        rcases Nat.eq_or_lt_of_le h1 with h | h
        · exact absurd (h ▸ h3) hci
        · omega

theorem scrollGo_found_spec (c : Nat → Bool) (fuel : Nat) : ∀ i,
    (scrollGo c i fuel).1 = true →
      i ≤ (scrollGo c i fuel).2 ∧ (scrollGo c i fuel).2 < i + fuel
      ∧ c (scrollGo c i fuel).2 = true
      ∧ ∀ j, i ≤ j → j < (scrollGo c i fuel).2 → c j = false := by
  induction fuel with
  | zero => intro i h; exact absurd h (by simp [scrollGo])
  | succ fuel ih =>
    intro i
    have hstep : scrollGo c i (fuel + 1)
        = if c i then (true, i) else scrollGo c (i + 1) fuel := rfl
    by_cases hci : c i = true
    · rw [hstep, if_pos hci]
      intro _
      refine ⟨le_refl i, show i < i + (fuel + 1) by omega, hci, ?_⟩
      intro j h1 h2
      have h2' : j < i := h2
      omega
    · rw [hstep, if_neg hci]
      intro h
      obtain ⟨g1, g2, g3, g4⟩ := ih (i + 1) h
      refine ⟨by omega, by omega, g3, ?_⟩
      intro j h1 h2
      rcases Nat.eq_or_lt_of_le h1 with he | he
      · rw [he] at hci; simpa using hci
      · exact g4 j (by omega) h2

theorem scrollGo_not_found (c : Nat → Bool) (fuel : Nat) : ∀ i,
    (scrollGo c i fuel).1 = false →
      (scrollGo c i fuel).2 = i + fuel ∧ ∀ j, i ≤ j → j < i + fuel → c j = false := by
  induction fuel with
  | zero =>
    intro i _
    refine ⟨show i = i + 0 from (Nat.add_zero i).symm, ?_⟩
    intro j h1 h2; omega
  | succ fuel ih =>
    intro i
    have hstep : scrollGo c i (fuel + 1)
        = if c i then (true, i) else scrollGo c (i + 1) fuel := rfl
    by_cases hci : c i = true
    · rw [hstep, if_pos hci]
      intro h; exact absurd h (by simp)
    · rw [hstep, if_neg hci]
      intro h
      obtain ⟨g1, g2⟩ := ih (i + 1) h
      refine ⟨by omega, ?_⟩
      intro j h1 h2
      rcases Nat.eq_or_lt_of_le h1 with he | he
      · rw [he] at hci; simpa using hci
      · exact g2 j (by omega) (by omega)

/-- **C5**: each scroll iteration's stop check tests the page source with
`check_target_days` at `target_days + 1` when `target_days > 0` and at `0`
(the "1 day ago" patterns) when `target_days = 0`; the loop stops at the
first iteration where the check succeeds, and otherwise runs exactly
`max_scrolls` iterations. -/
theorem scrollLoop_stop_condition (htmlAt : Nat → List Char)
    (target_days max_scrolls adj : Nat)
    (hadj : adj = if target_days = 0 then 0 else target_days + 1) :
    ((scrollLoop htmlAt target_days max_scrolls).1 = true ↔
       ∃ i, i < max_scrolls ∧ check_target_days (htmlAt i) adj = true)
    ∧ ((scrollLoop htmlAt target_days max_scrolls).1 = true →
         (scrollLoop htmlAt target_days max_scrolls).2 < max_scrolls
         ∧ check_target_days (htmlAt (scrollLoop htmlAt target_days max_scrolls).2) adj = true
         ∧ ∀ j, j < (scrollLoop htmlAt target_days max_scrolls).2 →
             check_target_days (htmlAt j) adj = false)
    ∧ ((scrollLoop htmlAt target_days max_scrolls).1 = false →
         (scrollLoop htmlAt target_days max_scrolls).2 = max_scrolls
         ∧ ∀ j, j < max_scrolls → check_target_days (htmlAt j) adj = false) := by
  subst hadj
  unfold scrollLoop
  set c := fun i => check_target_days (htmlAt i)
    (if target_days = 0 then 0 else target_days + 1) with hc
  refine ⟨?_, ?_, ?_⟩
  · rw [scrollGo_found_iff c max_scrolls 0]
    constructor
    · rintro ⟨j, _, h2, h3⟩; exact ⟨j, by omega, h3⟩
    · rintro ⟨j, h2, h3⟩; exact ⟨j, by omega, by omega, h3⟩
  · intro h
    obtain ⟨_, g2, g3, g4⟩ := scrollGo_found_spec c max_scrolls 0 h
    exact ⟨by omega, g3, fun j hj => g4 j (by omega) hj⟩
  · intro h
    obtain ⟨g1, g2⟩ := scrollGo_not_found c max_scrolls 0 h
    exact ⟨by omega, fun j hj => g2 j (by omega) (by omega)⟩

/-- Page snapshots used by the C5 witness: "3d ago" content appears after
two scrolls. -/
def htmlAtW : Nat → List Char :=
  fun i => if i = 2 then "Breaking: 3D ago".toList else "No old content".toList

/-- Witness for C5: with `target_days = 2` the loop checks for "3d ago"
content and stops after exactly two scrolls, within the budget of 5. -/
theorem scrollLoop_stop_condition_witness :
    (scrollLoop htmlAtW 2 5).2 < 5
    ∧ check_target_days (htmlAtW (scrollLoop htmlAtW 2 5).2) 3 = true :=
  have h := (scrollLoop_stop_condition htmlAtW 2 5 3 (by decide)).2.1 (by decide)
  ⟨h.1, h.2.1⟩

/-! ## Bulk Store Writer (`MongoDBManager.clear_and_insert_bulk`,
src/sentiment_delta/utils/database.py)

A stored document is an association list of field names to wire values;
`BVal.nan` is the float NaN.  The collection state is the list of its
documents; `delete_many({})` empties it and each `insert_many` batch
appends.  `range(0, len, batch_size)` is modelled by `pyRangeStep`. -/

/-- A document field value. -/
inductive BVal
  | null
  | nan
  | num (q : Int)
  | text (s : List Char)
deriving DecidableEq

/-- A document: field names with values. -/
abbrev Doc := List (List Char × BVal)

/-- The per-value NaN cleaning: `None` for float NaN, unchanged otherwise. -/
def cleanVal : BVal → BVal
  | .nan => .null
  | v => v

/-- The per-document NaN cleaning loop. -/
def cleanDoc (d : Doc) : Doc := d.map (fun kv => (kv.1, cleanVal kv.2))

/-- Model of Python `range(0, stop, step)` (the index sequence of the batch
loop); `range` raises for `step = 0`, so the model is meaningful for
`step > 0` only. -/
def pyRangeStep (stop step : Nat) : List Nat :=
  List.range' 0 ((stop + step - 1) / step) step

/-- The batch slices `data[i:i + batch_size]` for `i in range(0, len, batch_size)`. -/
def chunkBatches (bs : Nat) (l : List α) : List (List α) :=
  (pyRangeStep l.length bs).map (fun i => (l.drop i).take bs)

/-- Result of a bulk replace: final collection contents, the batch sequence
handed to `insert_many`, and the accumulated count of inserted ids. -/
structure BulkResult where
  store : List Doc
  batches : List (List Doc)
  inserted : Nat
deriving DecidableEq

/-- Model of `clear_and_insert_bulk(collection_name, data, batch_size)`:
delete all documents, rewrite NaN field values to null, then insert the
cleaned records in sequential batches, summing the inserted ids. -/
def clear_and_insert_bulk (_coll : List Doc) (data : List Doc) (batch_size : Nat) :
    BulkResult :=
  let clean_data := data.map cleanDoc
  let bts := chunkBatches batch_size clean_data
  { store := bts.foldl (fun s b => s ++ b) []
    batches := bts
    inserted := bts.foldl (fun n b => n + b.length) 0 }

theorem range'_map_shift {β : Type} (f : Nat → β) (step : Nat) :
    ∀ (m a : Nat), (List.range' (a + step) m step).map f
      = (List.range' a m step).map (fun i => f (i + step)) := by
  intro m
  induction m with
  | zero => intro a; rfl
  | succ m ih =>
    intro a
    simp only [List.range'_succ, List.map_cons]
    rw [ih (a + step)]

theorem chunkBatches_nil {α : Type} (bs : Nat) : chunkBatches bs ([] : List α) = [] := by
  unfold chunkBatches pyRangeStep
  cases bs with
  | zero => simp
  | succ b =>
    rw [List.length_nil, Nat.zero_add, Nat.succ_sub_one, Nat.div_eq_of_lt (by omega)]
    rfl

theorem chunkBatches_cons {α : Type} (bs : Nat) (hbs : 0 < bs) (l : List α) (hne : l ≠ []) :
    chunkBatches bs l = l.take bs :: chunkBatches bs (l.drop bs) := by
  have hL : 0 < l.length := List.length_pos.mpr hne
  have hcount : (l.length + bs - 1) / bs = ((l.drop bs).length + bs - 1) / bs + 1 := by
    rw [List.length_drop]
    rcases Nat.lt_or_ge l.length bs with hlt | hge
    · have h1 : l.length - bs = 0 := by omega
      have h2 : (0 + bs - 1) / bs = 0 := Nat.div_eq_of_lt (by omega)
      have h3 : (l.length + bs - 1) / bs = 1 :=
        Nat.div_eq_of_lt_le (by omega) (by omega)
      rw [h1, h2, h3]
    · have h1 : l.length + bs - 1 = (l.length - 1) + bs := by omega
      have h2 : l.length - bs + bs - 1 = l.length - 1 := by omega
      rw [h1, h2, Nat.add_div_right _ hbs]
  unfold chunkBatches pyRangeStep
  rw [hcount, List.range'_succ, List.map_cons, List.drop_zero]
  congr 1
  have hshift := range'_map_shift (fun i => (l.drop i).take bs) bs
    (((l.drop bs).length + bs - 1) / bs) 0
  rw [hshift]
  apply List.map_congr_left
  intro i _
  rw [List.drop_drop, Nat.add_comm]

theorem foldl_append_eq {α : Type} (bts : List (List α)) :
    ∀ acc, bts.foldl (fun s b => s ++ b) acc = acc ++ bts.flatten := by
  induction bts with
  | nil => intro acc; simp
  | cons b bts ih =>
    intro acc
    simp only [List.foldl_cons, List.flatten_cons]
    rw [ih (acc ++ b), List.append_assoc]

theorem foldl_count_eq {α : Type} (bts : List (List α)) :
    ∀ n0, bts.foldl (fun n b => n + b.length) n0 = n0 + (bts.map List.length).sum := by
  induction bts with
  | nil => intro n0; simp
  | cons b bts ih =>
    intro n0
    simp only [List.foldl_cons, List.map_cons, List.sum_cons]
    rw [ih (n0 + b.length)]
    omega

theorem chunkBatches_join {α : Type} (bs : Nat) (hbs : 0 < bs) :
    ∀ (n : Nat) (l : List α), l.length ≤ n → (chunkBatches bs l).flatten = l := by
  intro n
  induction n with
  | zero =>
    intro l h
    have hl : l = [] := List.eq_nil_of_length_eq_zero (Nat.le_zero.mp h)
    rw [hl, chunkBatches_nil]
    rfl
  | succ n ih =>
    intro l h
    rcases eq_or_ne l [] with rfl | hne
    · rw [chunkBatches_nil]; rfl
    · rw [chunkBatches_cons bs hbs l hne]
      simp only [List.flatten_cons]
      rw [ih (l.drop bs) (by
        rw [List.length_drop]
        have := List.length_pos.mpr hne
        omega)]
      exact List.take_append_drop bs l

theorem mem_chunkBatches {α : Type} {bs : Nat} {l b : List α} {x : α}
    (hb : b ∈ chunkBatches bs l) (hx : x ∈ b) : x ∈ l := by
  unfold chunkBatches at hb
  obtain ⟨i, _, rfl⟩ := List.mem_map.mp hb
  exact List.mem_of_mem_drop (List.mem_of_mem_take hx)

/-- **C3**: `clear_and_insert_bulk` deletes the partition, inserts the
records in sequential batches of at most `batch_size` (three batches of
sizes 2, 2, 1 for five records at `batch_size = 2`), returns the total
count of inserted ids, and a second call leaves only the new record set. -/
theorem clear_and_insert_bulk_spec (coll data : List Doc) (bs : Nat) (hbs : 0 < bs) :
    (clear_and_insert_bulk coll data bs).store = data.map cleanDoc
    ∧ (clear_and_insert_bulk coll data bs).inserted = data.length
    ∧ (∀ coll2 data2 : List Doc,
        (clear_and_insert_bulk coll2 data2 bs).store = data2.map cleanDoc)
    ∧ (data.length = 5 → bs = 2 →
        ((clear_and_insert_bulk coll data bs).batches).map List.length = [2, 2, 1]) := by
  have hstore : ∀ c d : List Doc, (clear_and_insert_bulk c d bs).store = d.map cleanDoc := by
    intro c d
    show (chunkBatches bs (d.map cleanDoc)).foldl (fun s b => s ++ b) [] = d.map cleanDoc
    rw [foldl_append_eq, List.nil_append,
      chunkBatches_join bs hbs (d.map cleanDoc).length _ (le_refl _)]
  refine ⟨hstore coll data, ?_, fun c2 d2 => hstore c2 d2, ?_⟩
  · show (chunkBatches bs (data.map cleanDoc)).foldl (fun n b => n + b.length) 0 = data.length
    rw [foldl_count_eq, Nat.zero_add, ← List.length_flatten,
      chunkBatches_join bs hbs (data.map cleanDoc).length _ (le_refl _), List.length_map]
  · intro h5 hbs2
    subst hbs2
    show (chunkBatches 2 (data.map cleanDoc)).map List.length = [2, 2, 1]
    have hcl : (data.map cleanDoc).length = 5 := by rw [List.length_map, h5]
    have hne1 : data.map cleanDoc ≠ [] := by
      intro h; rw [h] at hcl; simp at hcl
    have hlen2 : ((data.map cleanDoc).drop 2).length = 3 := by
      rw [List.length_drop, hcl]
    have hne2 : (data.map cleanDoc).drop 2 ≠ [] := by
      intro h; rw [h] at hlen2; simp at hlen2
    have hlen3 : (((data.map cleanDoc).drop 2).drop 2).length = 1 := by
      rw [List.length_drop, hlen2]
    have hne3 : ((data.map cleanDoc).drop 2).drop 2 ≠ [] := by
      intro h; rw [h] at hlen3; simp at hlen3
    have hnil : ((((data.map cleanDoc).drop 2).drop 2).drop 2) = [] := by
      apply List.eq_nil_of_length_eq_zero
      rw [List.length_drop, hlen3]
    rw [chunkBatches_cons 2 (by omega) _ hne1,
      chunkBatches_cons 2 (by omega) _ hne2,
      chunkBatches_cons 2 (by omega) _ hne3,
      hnil, chunkBatches_nil]
    simp [List.length_take, hcl, hlen2, hlen3]

/-- Five concrete market-bar documents for the C3 witness. -/
def docsW : List Doc :=
  [[("Close".toList, BVal.num 1)], [("Close".toList, BVal.num 2)],
   [("Close".toList, BVal.num 3)], [("Close".toList, BVal.num 4)],
   [("Close".toList, BVal.num 5)]]

/-- Witness for C3: five records at batch size 2 on an empty store produce
batches of sizes 2, 2, 1, an inserted count of 5, and exactly the new set. -/
theorem clear_and_insert_bulk_spec_witness :
    (clear_and_insert_bulk [] docsW 2).store = docsW.map cleanDoc
    ∧ (clear_and_insert_bulk [] docsW 2).inserted = 5
    ∧ ((clear_and_insert_bulk [] docsW 2).batches).map List.length = [2, 2, 1] := by
  have h := clear_and_insert_bulk_spec [] docsW 2 (by decide)
  refine ⟨h.1, ?_, h.2.2.2 (by decide) rfl⟩
  rw [h.2.1]
  decide

/-- **C7**: every document of every batch handed to `insert_many` by
`clear_and_insert_bulk` is NaN-free: the cleaning pass runs before any
batch is sent. -/
theorem clear_and_insert_bulk_no_nan (coll data : List Doc) (bs : Nat)
    (b : List Doc) (d : Doc) (kv : List Char × BVal)
    (hb : b ∈ (clear_and_insert_bulk coll data bs).batches)
    (hd : d ∈ b) (hkv : kv ∈ d) : kv.2 ≠ BVal.nan := by
  have hbb : b ∈ chunkBatches bs (data.map cleanDoc) := hb
  have hdd : d ∈ data.map cleanDoc := mem_chunkBatches hbb hd
  obtain ⟨d0, _, rfl⟩ := List.mem_map.mp hdd
  obtain ⟨kv0, _, rfl⟩ := List.mem_map.mp hkv
  cases h : kv0.2 <;> simp [cleanVal, h]

/-- Two concrete documents (one with a NaN field) for the C7 witness. -/
def docsNanW : List Doc :=
  [[("Open".toList, BVal.nan)], [("Open".toList, BVal.num 3)]]

/-- Witness for C7: the NaN field of the first record reaches its batch as
null, which is not NaN. -/
theorem clear_and_insert_bulk_no_nan_witness :
    (("Open".toList, BVal.null) : List Char × BVal).2 ≠ BVal.nan :=
  clear_and_insert_bulk_no_nan [] docsNanW 1 [[("Open".toList, BVal.null)]]
    [("Open".toList, BVal.null)] ("Open".toList, BVal.null)
    (by decide) (by decide) (by decide)

/-! ## Crawl Orchestrator (paginated MarketWatch scraper, src/scraper.py)

An `element--article` div is abstracted by what the four headline
selectors, the author selector and the `data-timestamp` attribute can
return.  A fetched page is `none` when the HTTP fetch failed or the
collection container is absent, otherwise the list of article elements.
The article-body capability is the `bodyOf` parameter. -/

/-- A headline anchor: its text and optional `href`. -/
structure HeadElem where
  text : List Char
  href : Option (List Char)
deriving DecidableEq

/-- One `element--article` div, as seen by `parse_article_element`: the
`select_one` results for `h3.article__headline a`, `h3 a`, `h2 a`, `h4 a`,
the author span text and the `data-timestamp` attribute. -/
structure MWElement where
  s1 : Option HeadElem
  s2 : Option HeadElem
  s3 : Option HeadElem
  s4 : Option HeadElem
  author : Option (List Char)
  dataTimestamp : Option (List Char)
deriving DecidableEq

/-- The selector results in the order the code tries them. -/
def selList (e : MWElement) : List (Option HeadElem) := [e.s1, e.s2, e.s3, e.s4]

/-- MarketWatch base origin. -/
def mwBase : List Char := "https://www.marketwatch.com".toList

/-- Model of Python `str.replace(pat, '')`: delete every occurrence. -/
def removeAll (pat : List Char) : List Char → List Char
  | [] => []
  | x :: xs =>
    if h : pat ≠ [] ∧ pat.isPrefixOf (x :: xs) then removeAll pat ((x :: xs).drop pat.length)
    else x :: removeAll pat xs
termination_by l => l.length
decreasing_by
  · simp only [List.length_drop, List.length_cons]
    have := List.length_pos.mpr h.1
    omega
  · simp

/-- A parsed MarketWatch article record. -/
structure MWArticle where
  ticker : List Char
  title : List Char
  url : Option (List Char)
  author : Option (List Char)
  dataTimestamp : Option (List Char)
  summary : Option (List Char)
deriving DecidableEq

/-- The selector loop of `parse_article_element`: each found element
overwrites `headline`/`url`; the loop breaks once the headline is non-empty
and longer than 15 characters. -/
def mwSelLoop : List (Option HeadElem) →
    Option (List Char) × Option (List Char) → Option (List Char) × Option (List Char)
  | [], st => st
  | none :: rest, st => mwSelLoop rest st
  | some e :: rest, _ =>
    let h := pyStrip e.text
    if h ≠ [] ∧ h.length > 15 then (some h, e.href)
    else mwSelLoop rest (some h, e.href)

/-- The `url` key produced from the selector loop's url value: absent for
falsy urls, absolute urls kept, others prefixed with the MarketWatch
origin (with a `/` inserted when missing). -/
def mwUrlOf (url0 : Option (List Char)) : Option (List Char) :=
  match url0 with
  | some u =>
    if u = [] then none
    else if "http".toList.isPrefixOf u then some u
    else some (mwBase ++ (if ("/".toList).isPrefixOf u then u else '/' :: u))
  | none => none

/-- Model of `parse_article_element(element, ticker)`: `None` unless the
final headline, trimmed, has at least 10 characters. -/
def parse_article_element (e : MWElement) (ticker : List Char) : Option MWArticle :=
  match mwSelLoop (selList e) (none, none) with
  | (none, _) => none
  | (some h, url0) =>
    if (pyStrip h).length < 10 then none
    else
      some { ticker := pyUpper ticker, title := pyStrip h, url := mwUrlOf url0,
             author := e.author.map
               (fun a => removeAll "By ".toList (removeAll "by ".toList a)),
             dataTimestamp := e.dataTimestamp, summary := none }

/-- Model of `scrape_page(session, url, ticker)`: empty on fetch failure or
missing container; otherwise parse each element, skip unparsed articles and
articles without a `url` key, and attach the body text (or the sentinel). -/
def scrape_page (page : Option (List MWElement))
    (bodyOf : List Char → Option (List Char)) (ticker : List Char) : List MWArticle :=
  match page with
  | none => []
  | some elems =>
    elems.filterMap (fun e =>
      match parse_article_element e ticker with
      | none => none
      | some a =>
        match a.url with
        | none => none
        | some u =>
          some { a with summary := some ((bodyOf u).getD ("Content unavailable".toList)) })

/-- The paginated loop of `scrape_ticker`: starting at page `p` with `fuel`
pages remaining, fetch pages in order, stopping (after the fetch) at the
first empty page; returns the accumulated articles and the fetch log. -/
def scrapeLoop (fetchp : Nat → List MWArticle) : Nat → Nat → List MWArticle × List Nat
  | _, 0 => ([], [])
  | p, fuel + 1 =>
    let arts := fetchp p
    if arts = [] then ([], [p])
    else
      let r := scrapeLoop fetchp (p + 1) fuel
      (arts ++ r.1, p :: r.2)

/-- Model of `scrape_ticker(ticker, max_pages)`: the base page (no page
parameter) first, then pages `1..max_pages`; returns the articles and the
log of fetched pages (`none` is the base page). -/
def scrape_ticker (pages : Option Nat → Option (List MWElement))
    (bodyOf : List Char → Option (List Char)) (ticker : List Char) (max_pages : Nat) :
    List MWArticle × List (Option Nat) :=
  let t := pyLower ticker
  let base := scrape_page (pages none) bodyOf t
  let rest := scrapeLoop (fun p => scrape_page (pages (some p)) bodyOf t) 1 max_pages
  (base ++ rest.1, none :: rest.2.map some)

theorem scrapeLoop_all_nonempty (f : Nat → List MWArticle) (fuel : Nat) : ∀ p,
    (∀ q, p ≤ q → q < p + fuel → f q ≠ []) →
      scrapeLoop f p fuel
        = (((List.range' p fuel).map f).flatten, List.range' p fuel) := by
  induction fuel with
  | zero => intro p _; rfl
  | succ fuel ih =>
    intro p h
    have hp : f p ≠ [] := h p (le_refl p) (by omega)
    have hstep : scrapeLoop f p (fuel + 1)
        = if f p = [] then ([], [p])
          else (f p ++ (scrapeLoop f (p + 1) fuel).1, p :: (scrapeLoop f (p + 1) fuel).2) := rfl
    rw [hstep, if_neg hp, ih (p + 1) (fun q h1 h2 => h q (by omega) (by omega))]
    rw [List.range'_succ]
    simp

theorem scrapeLoop_stops (f : Nat → List MWArticle) (fuel : Nat) : ∀ p j,
    p ≤ j → j < p + fuel → f j = [] → (∀ q, p ≤ q → q < j → f q ≠ []) →
      scrapeLoop f p fuel
        = (((List.range' p (j - p)).map f).flatten, List.range' p (j - p + 1)) := by
  induction fuel with
  | zero => intro p j h1 h2; omega
  | succ fuel ih =>
    intro p j h1 h2 hj hq
    have hstep : scrapeLoop f p (fuel + 1)
        = if f p = [] then ([], [p])
          else (f p ++ (scrapeLoop f (p + 1) fuel).1, p :: (scrapeLoop f (p + 1) fuel).2) := rfl
    rcases Nat.eq_or_lt_of_le h1 with he | hlt
    · subst he
      rw [hstep, if_pos hj]
      simp [Nat.sub_self, List.range'_succ]
    · have hp : f p ≠ [] := hq p (le_refl p) hlt
      rw [hstep, if_neg hp,
        ih (p + 1) j (by omega) (by omega) hj (fun q hq1 hq2 => hq q (by omega) hq2)]
      have e1 : j - p = (j - (p + 1)) + 1 := by omega
      rw [e1, List.range'_succ, List.range'_succ]
      simp [List.range'_succ]

theorem mem_scrapeLoop (f : Nat → List MWArticle) (fuel : Nat) : ∀ p (a : MWArticle),
    a ∈ (scrapeLoop f p fuel).1 → ∃ q, a ∈ f q := by
  induction fuel with
  | zero => intro p a ha; exact absurd ha (by simp [scrapeLoop])
  | succ fuel ih =>
    intro p a
    have hstep : scrapeLoop f p (fuel + 1)
        = if f p = [] then ([], [p])
          else (f p ++ (scrapeLoop f (p + 1) fuel).1, p :: (scrapeLoop f (p + 1) fuel).2) := rfl
    rw [hstep]
    by_cases hp : f p = []
    · rw [if_pos hp]; intro ha; exact absurd ha (by simp)
    · rw [if_neg hp]
      intro ha
      rcases List.mem_append.mp ha with h | h
      · exact ⟨p, h⟩
      · exact ih (p + 1) a h

/-- **C4**: `scrape_ticker` fetches the base page first, then pages
`1..max_pages` in order, stopping at the first page that yields zero
articles: when every page is non-empty the fetch log is the base page
followed by pages `1..max_pages`; when page `j` is the first empty page the
log ends at `j` (later pages are never fetched) and the articles are those
of the base page and of pages `1..j-1`. -/
theorem scrape_ticker_pagination (pages : Option Nat → Option (List MWElement))
    (bodyOf : List Char → Option (List Char)) (ticker : List Char) (mp : Nat) :
    ((∀ p, 1 ≤ p → p ≤ mp → scrape_page (pages (some p)) bodyOf (pyLower ticker) ≠ []) →
      (scrape_ticker pages bodyOf ticker mp).2 = none :: (List.range' 1 mp).map some)
    ∧ (∀ j, 1 ≤ j → j ≤ mp →
        scrape_page (pages (some j)) bodyOf (pyLower ticker) = [] →
        (∀ p, 1 ≤ p → p < j → scrape_page (pages (some p)) bodyOf (pyLower ticker) ≠ []) →
        (scrape_ticker pages bodyOf ticker mp).2 = none :: (List.range' 1 j).map some
        ∧ (scrape_ticker pages bodyOf ticker mp).1
            = scrape_page (pages none) bodyOf (pyLower ticker)
              ++ ((List.range' 1 (j - 1)).map
                    (fun p => scrape_page (pages (some p)) bodyOf (pyLower ticker))).flatten) := by
  constructor
  · intro h
    show none :: (scrapeLoop
        (fun p => scrape_page (pages (some p)) bodyOf (pyLower ticker)) 1 mp).2.map some = _
    rw [scrapeLoop_all_nonempty _ mp 1 (fun q h1 h2 => h q h1 (by omega))]
  · intro j hj1 hjmp hjempty hbefore
    have hloop := scrapeLoop_stops
      (fun p => scrape_page (pages (some p)) bodyOf (pyLower ticker)) mp 1 j hj1
      (by omega) hjempty (fun q h1 h2 => hbefore q h1 h2)
    constructor
    · show none :: (scrapeLoop
          (fun p => scrape_page (pages (some p)) bodyOf (pyLower ticker)) 1 mp).2.map some = _
      rw [hloop]
      rw [show j - 1 + 1 = j from by omega]
    · show scrape_page (pages none) bodyOf (pyLower ticker)
          ++ (scrapeLoop
                (fun p => scrape_page (pages (some p)) bodyOf (pyLower ticker)) 1 mp).1 = _
      rw [hloop]

/-- Page oracle of the C4 witness: no page has a stream container. -/
def pagesEmptyW : Option Nat → Option (List MWElement) := fun _ => none

/-- Article-body oracle used by witnesses: extraction always fails. -/
def bodyNoneW : List Char → Option (List Char) := fun _ => none

/-- Witness for C4: with `max_pages = 3` and page 1 empty, only the base
page and page 1 are fetched; pages 2 and 3 never appear in the log. -/
theorem scrape_ticker_pagination_witness :
    (scrape_ticker pagesEmptyW bodyNoneW ("amzn".toList) 3).2
        = none :: (List.range' 1 1).map some
    ∧ (scrape_ticker pagesEmptyW bodyNoneW ("amzn".toList) 3).1
        = scrape_page (pagesEmptyW none) bodyNoneW (pyLower ("amzn".toList))
          ++ ((List.range' 1 (1 - 1)).map
                (fun p => scrape_page (pagesEmptyW (some p)) bodyNoneW
                  (pyLower ("amzn".toList)))).flatten :=
  (scrape_ticker_pagination pagesEmptyW bodyNoneW ("amzn".toList) 3).2 1
    (le_refl 1) (by omega) rfl (fun p h1 h2 => absurd h2 (by omega))

theorem parse_article_element_title_len (e : MWElement) (t : List Char) (a : MWArticle)
    (hp : parse_article_element e t = some a) : 10 ≤ a.title.length := by
  unfold parse_article_element at hp
  split at hp
  · exact Option.noConfusion hp
  · split at hp
    · exact Option.noConfusion hp
    · obtain rfl := (Option.some.inj hp).symm
      simp only [MWArticle.title]
      omega

theorem mem_scrape_page (page : Option (List MWElement))
    (bodyOf : List Char → Option (List Char)) (t : List Char) (a : MWArticle)
    (ha : a ∈ scrape_page page bodyOf t) : a.url ≠ none ∧ 10 ≤ a.title.length := by
  cases page with
  | none => exact absurd ha (by simp [scrape_page])
  | some elems =>
    obtain ⟨e, _, hfe⟩ := List.mem_filterMap.mp ha
    rcases hpa : parse_article_element e t with _ | a0
    · simp only [hpa] at hfe
      exact Option.noConfusion hfe
    · simp only [hpa] at hfe
      rcases hurl : a0.url with _ | u
      · simp only [hurl] at hfe
        exact Option.noConfusion hfe
      · simp only [hurl] at hfe
        obtain rfl := (Option.some.inj hfe).symm
        have htl := parse_article_element_title_len e t a0 hpa
        exact ⟨by simp [hurl], htl⟩

/-- **C10**: every article produced by the paginated MarketWatch crawl has
a `url` and a trimmed title of length at least 10: `parse_article_element`
rejects short headlines, and `scrape_page` additionally skips parsed
articles without a `url` key. -/
theorem scrape_ticker_articles_valid :
    (∀ (e : MWElement) (t : List Char) (a : MWArticle),
        parse_article_element e t = some a → 10 ≤ a.title.length)
    ∧ (∀ (page : Option (List MWElement)) (bodyOf : List Char → Option (List Char))
         (t : List Char) (a : MWArticle),
        a ∈ scrape_page page bodyOf t → a.url ≠ none ∧ 10 ≤ a.title.length)
    ∧ (∀ (pages : Option Nat → Option (List MWElement))
         (bodyOf : List Char → Option (List Char)) (t : List Char) (mp : Nat)
         (a : MWArticle),
        a ∈ (scrape_ticker pages bodyOf t mp).1 → a.url ≠ none ∧ 10 ≤ a.title.length) := by
  refine ⟨parse_article_element_title_len, mem_scrape_page, ?_⟩
  intro pages bodyOf t mp a ha
  have ha' : a ∈ scrape_page (pages none) bodyOf (pyLower t)
      ++ (scrapeLoop (fun p => scrape_page (pages (some p)) bodyOf (pyLower t)) 1 mp).1 := ha
  rcases List.mem_append.mp ha' with h | h
  · exact mem_scrape_page _ bodyOf (pyLower t) a h
  · obtain ⟨q, hq⟩ := mem_scrapeLoop _ mp 1 a h
    exact mem_scrape_page _ bodyOf (pyLower t) a hq

/-- Article element of the C10 witness. -/
def mwElemW : MWElement :=
  { s1 := some ⟨"A perfectly fine headline".toList, some "/story/abc".toList⟩,
    s2 := none, s3 := none, s4 := none, author := none, dataTimestamp := none }

/-- The article `scrape_page` produces from `mwElemW`. -/
def mwArticleW : MWArticle :=
  { ticker := "AMZN".toList, title := "A perfectly fine headline".toList,
    url := some ("https://www.marketwatch.com/story/abc".toList),
    author := none, dataTimestamp := none,
    summary := some ("Content unavailable".toList) }

/-- Witness for C10: a concrete scraped article has a url and a title of
length at least 10. -/
theorem scrape_ticker_articles_valid_witness :
    mwArticleW.url ≠ none ∧ 10 ≤ mwArticleW.title.length :=
  scrape_ticker_articles_valid.2.1 (some [mwElemW]) bodyNoneW ("amzn".toList) mwArticleW
    (by decide)

/-! ## Multi-ticker crawl (`scrape_multiple_tickers`, src/scraper.py)

The per-ticker crawl (the body of the `try` block) is an oracle that
either returns articles or raises; the `except` arm records an empty list
and the loop continues with the remaining tickers. -/

/-- What the loop body stores for ticker `t`: the crawl result, or `[]`
when the crawl raised. -/
def crawlValue (crawl : List Char → Except Unit (List MWArticle)) (t : List Char) :
    List MWArticle :=
  match crawl t with
  | .ok arts => arts
  | .error _ => []

/-- The `for ticker in tickers` loop with its `try/except`, accumulating
`results[ticker.upper()]` entries in insertion order. -/
def smtGo (crawl : List Char → Except Unit (List MWArticle)) :
    List (List Char) → List (List Char × List MWArticle) → List (List Char × List MWArticle)
  | [], acc => acc
  | t :: ts, acc =>
    match crawl t with
    | .ok arts => smtGo crawl ts (acc ++ [(pyUpper t, arts)])
    | .error _ => smtGo crawl ts (acc ++ [(pyUpper t, [])])

/-- Model of `scrape_multiple_tickers(tickers, max_pages)`. -/
def scrape_multiple_tickers (crawl : List Char → Except Unit (List MWArticle))
    (tickers : List (List Char)) : List (List Char × List MWArticle) :=
  smtGo crawl tickers []

theorem smtGo_eq (crawl : List Char → Except Unit (List MWArticle))
    (ts : List (List Char)) : ∀ acc,
    smtGo crawl ts acc = acc ++ ts.map (fun t => (pyUpper t, crawlValue crawl t)) := by
  induction ts with
  | nil => intro acc; simp [smtGo]
  | cons t ts ih =>
    intro acc
    show (match crawl t with
      | .ok arts => smtGo crawl ts (acc ++ [(pyUpper t, arts)])
      | .error _ => smtGo crawl ts (acc ++ [(pyUpper t, [])])) = _
    rcases hc : crawl t with e | arts
    · simp [ih, crawlValue, hc]
    · simp [ih, crawlValue, hc]

/-- **C8**: in a multi-ticker run every requested ticker gets exactly one
entry — its crawl result, or `[]` when the crawl raised — and a failure on
one ticker never prevents the remaining tickers from being processed. -/
theorem scrape_multiple_tickers_isolation
    (crawl : List Char → Except Unit (List MWArticle)) (tickers : List (List Char)) :
    scrape_multiple_tickers crawl tickers
      = tickers.map (fun t => (pyUpper t, crawlValue crawl t))
    ∧ (∀ t ∈ tickers,
        (pyUpper t, crawlValue crawl t) ∈ scrape_multiple_tickers crawl tickers)
    ∧ (∀ t ∈ tickers, ∀ e, crawl t = .error e →
        (pyUpper t, ([] : List MWArticle)) ∈ scrape_multiple_tickers crawl tickers) := by
  have h1 : scrape_multiple_tickers crawl tickers
      = tickers.map (fun t => (pyUpper t, crawlValue crawl t)) := by
    show smtGo crawl tickers [] = _
    rw [smtGo_eq crawl tickers []]
    simp
  refine ⟨h1, ?_, ?_⟩
  · intro t ht
    rw [h1]
    exact List.mem_map.mpr ⟨t, ht, rfl⟩
  · intro t ht e he
    have hv : crawlValue crawl t = [] := by simp [crawlValue, he]
    rw [h1]
    exact List.mem_map.mpr ⟨t, ht, by rw [hv]⟩

/-- Crawl oracle of the C8 witness: the ticker "fail" raises, every other
ticker yields one article. -/
def crawlW : List Char → Except Unit (List MWArticle) :=
  fun t => if t = "fail".toList then .error () else .ok [mwArticleW]

/-- Ticker list of the C8 witness; the failing ticker sits in the middle. -/
def tickersW : List (List Char) := ["aapl".toList, "fail".toList, "amzn".toList]

/-- Witness for C8: the failing ticker is recorded with an empty result in
the aggregate mapping. -/
theorem scrape_multiple_tickers_isolation_witness :
    (pyUpper ("fail".toList), ([] : List MWArticle))
      ∈ scrape_multiple_tickers crawlW tickersW :=
  (scrape_multiple_tickers_isolation crawlW tickersW).2.2 ("fail".toList)
    (by decide) () rfl

/-! ## Normalizer (`clean_data`, src/sentiment_delta/data/processor.py)

A frame is a list of rows; each row has a `Date` cell (datetime-typed, so
`NaT` or a value — infinities cannot inhabit a datetime column) and a list
of numeric cells (which can be NaN, ±infinity, or finite).  `sort_values`
is modelled by insertion sort under the pandas key order (NaT last),
`ffill`/`bfill` by an explicit per-column carry (backward fill is forward
fill on the reversed frame), `dropna` by a row filter, and
`replace([inf, -inf], None)` by a cell map.  `pd.to_datetime` on the
already-datetime column is the identity. -/

/-- A numeric cell: missing, ±infinity, or a finite value. -/
inductive Cell
  | na
  | pinf
  | ninf
  | num (x : Int)
deriving DecidableEq

/-- A `Date` cell: `NaT` or a timestamp. -/
inductive DVal
  | na
  | d (x : Int)
deriving DecidableEq

/-- One row of the frame. -/
structure Row where
  date : DVal
  vals : List Cell
deriving DecidableEq

/-- The pandas sort key for a date cell: `NaT` sorts last. -/
def dKey : DVal → Nat × Int
  | .na => (1, 0)
  | .d x => (0, x)

/-- The date order used by `sort_values('Date')`. -/
def dle (a b : DVal) : Prop :=
  (dKey a).1 < (dKey b).1 ∨ ((dKey a).1 = (dKey b).1 ∧ (dKey a).2 ≤ (dKey b).2)

instance : DecidableRel dle := fun a b => by unfold dle; infer_instance

/-- Row comparison by date key. -/
def rle (a b : Row) : Prop := dle a.date b.date

instance : DecidableRel rle := fun a b => by unfold rle dle; infer_instance

instance : IsTotal Row rle := ⟨fun a b => by unfold rle dle; omega⟩

instance : IsTrans Row rle := ⟨fun a b c => by unfold rle dle; omega⟩

theorem dle_refl (a : DVal) : dle a a := by unfold dle; omega

theorem dle_na_right (a : DVal) : dle a .na := by
  cases a <;> simp [dle, dKey]

theorem dle_na_left {a : DVal} (h : dle DVal.na a) : a = .na := by
  cases a with
  | na => rfl
  | d x => simp [dle, dKey] at h

/-- Forward-fill step for the date column: `NaT` takes the carry, a value
becomes the new carry. -/
def fillD : Option DVal → DVal → DVal × Option DVal
  | c, .na => (c.getD .na, c)
  | _, .d x => (.d x, some (.d x))

/-- Forward-fill step for a numeric cell: NaN takes the carry, any other
value (including ±infinity, which pandas treats as present) becomes the
new carry. -/
def fillCell : Option Cell → Cell → Cell × Option Cell
  | c, .na => (c.getD .na, c)
  | _, v => (v, some v)

/-- Forward-fill of one row's numeric cells against per-column carries. -/
def fillVals : List (Option Cell) → List Cell → List Cell × List (Option Cell)
  | _, [] => ([], [])
  | carries, v :: vs =>
    ((fillCell (carries.headD none) v).1 :: (fillVals carries.tail vs).1,
     (fillCell (carries.headD none) v).2 :: (fillVals carries.tail vs).2)

/-- Forward fill over the rows, carrying the last seen value per column. -/
def ffillRows : Option DVal → List (Option Cell) → List Row → List Row
  | _, _, [] => []
  | dc, vc, r :: rs =>
    ⟨(fillD dc r.date).1, (fillVals vc r.vals).1⟩ ::
      ffillRows (fillD dc r.date).2 (fillVals vc r.vals).2 rs

/-- `df.ffill()`. -/
def ffillFrame (l : List Row) : List Row := ffillRows none [] l

/-- `df.bfill()`: forward fill of the reversed frame. -/
def bfillFrame (l : List Row) : List Row := (ffillRows none [] l.reverse).reverse

/-- Does the row still contain a missing value (`df.dropna` row predicate)? -/
def rowHasNa (r : Row) : Bool := r.date == .na || r.vals.any (fun c => c == .na)

/-- `replace([np.inf, -np.inf], None)` on one cell. -/
def replaceInfCell : Cell → Cell
  | .pinf => .na
  | .ninf => .na
  | c => c

/-- Infinity replacement on a row (the datetime column cannot hold floats). -/
def replaceInfRow (r : Row) : Row := ⟨r.date, r.vals.map replaceInfCell⟩

/-- `df.sort_values('Date')`. -/
def sortStage (df : List Row) : List Row := List.insertionSort rle df

/-- The frame after sort, forward fill, backward fill and `dropna`. -/
def dropnaStage (df : List Row) : List Row :=
  (bfillFrame (ffillFrame (sortStage df))).filter (fun r => !(rowHasNa r))

/-- Model of `clean_data(df)`: sort by date, forward then backward fill,
drop rows that still contain missing values, replace infinities with
missing values, coerce `Date` (identity here). -/
def clean_data (df : List Row) : List Row := (dropnaStage df).map replaceInfRow

/-- The date column of a frame. -/
def datesOf (l : List Row) : List DVal := l.map Row.date

/-- Forward fill restricted to the date column. -/
def ffillD : Option DVal → List DVal → List DVal
  | _, [] => []
  | c, x :: xs => (fillD c x).1 :: ffillD (fillD c x).2 xs

theorem datesOf_ffillRows (l : List Row) : ∀ (dc : Option DVal) (vc : List (Option Cell)),
    datesOf (ffillRows dc vc l) = ffillD dc (datesOf l) := by
  induction l with
  | nil => intro dc vc; rfl
  | cons r rs ih =>
    intro dc vc
    simp only [ffillRows, ffillD, datesOf, List.map_cons]
    rw [show (ffillRows (fillD dc r.date).2 (fillVals vc r.vals).2 rs).map Row.date
        = datesOf (ffillRows (fillD dc r.date).2 (fillVals vc r.vals).2 rs) from rfl,
      ih (fillD dc r.date).2 (fillVals vc r.vals).2]
    rfl

/-- The carry left after forward-filling past `ds`. -/
def lastCarry (c : Option DVal) (ds : List DVal) : Option DVal :=
  match ds.getLast? with
  | some v => some v
  | none => c

theorem lastCarry_cons (c : Option DVal) (x : DVal) (ds : List DVal) :
    lastCarry c (x :: ds) = lastCarry (some x) ds := by
  cases ds with
  | nil => rfl
  | cons y ys =>
    unfold lastCarry
    rw [List.getLast?_cons_cons]
    cases h : (y :: ys).getLast? with
    | none =>
      have h2 : (y :: ys) ≠ [] := by simp
      rw [← List.getLast?_isSome] at h2
      rw [h] at h2
      simp at h2
    | some v => rfl

theorem ffillD_app_noNa : ∀ (ds : List DVal) (c : Option DVal) (rest : List DVal),
    (∀ x ∈ ds, x ≠ .na) →
    ffillD c (ds ++ rest) = ds ++ ffillD (lastCarry c ds) rest := by
  intro ds
  induction ds with
  | nil => intro c rest _; rfl
  | cons x ds ih =>
    intro c rest hna
    match x, hna x (by simp) with
    | .d v, _ =>
      have hstep : ffillD c ((DVal.d v :: ds) ++ rest)
          = DVal.d v :: ffillD (some (DVal.d v)) (ds ++ rest) := rfl
      rw [hstep, ih (some (.d v)) rest (fun y hy => hna y (by simp [hy])), lastCarry_cons]
      simp

theorem ffillD_replicate_na (c : Option DVal) : ∀ k,
    ffillD c (List.replicate k .na) = List.replicate k (c.getD .na) := by
  intro k
  induction k with
  | zero => rfl
  | succ k ih => simp only [List.replicate_succ, ffillD, fillD, ih]

theorem ffillD_noNa_id : ∀ (l : List DVal) (c : Option DVal),
    (∀ x ∈ l, x ≠ .na) → ffillD c l = l := by
  intro l
  induction l with
  | nil => intro c _; rfl
  | cons x xs ih =>
    intro c hna
    match x, hna x (by simp) with
    | .d v, _ =>
      simp only [ffillD, fillD]
      rw [ih (some (.d v)) (fun y hy => hna y (by simp [hy]))]

theorem sorted_replicate (a : DVal) (ha : dle a a) : ∀ k,
    List.Sorted dle (List.replicate k a) := by
  intro k
  induction k with
  | zero => simp
  | succ k ih =>
    rw [List.replicate_succ, List.sorted_cons]
    exact ⟨fun b hb => (List.eq_of_mem_replicate hb) ▸ ha, ih⟩

theorem sorted_le_getLast : ∀ (ds : List DVal), List.Sorted dle ds →
    ∀ (hne : ds ≠ []) (a : DVal), a ∈ ds → dle a (ds.getLast hne) := by
  intro ds
  induction ds with
  | nil => intro _ hne; exact absurd rfl hne
  | cons x xs ih =>
    intro hs hne a ha
    rw [List.sorted_cons] at hs
    cases xs with
    | nil =>
      simp at ha
      rw [ha, List.getLast_singleton]
      exact dle_refl x
    | cons y ys =>
      rw [List.getLast_cons (by simp)]
      rcases List.mem_cons.mp ha with rfl | hmem
      · exact hs.1 _ (List.getLast_mem (by simp))
      · exact ih hs.2 (by simp) a hmem

theorem sorted_split : ∀ (l : List DVal), List.Sorted dle l →
    ∃ ds k, l = ds ++ List.replicate k DVal.na
      ∧ (∀ x ∈ ds, x ≠ DVal.na) ∧ List.Sorted dle ds := by
  intro l
  induction l with
  | nil => intro _; exact ⟨[], 0, rfl, by simp, by simp⟩
  | cons x xs ih =>
    intro hs
    rw [List.sorted_cons] at hs
    cases x with
    | na =>
      have hxs : ∀ b ∈ xs, b = DVal.na := fun b hb => dle_na_left (hs.1 b hb)
      refine ⟨[], xs.length + 1, ?_, by simp, by simp⟩
      rw [List.nil_append, List.replicate_succ]
      congr 1
      exact List.eq_replicate_of_mem hxs
    | d v =>
      obtain ⟨ds, k, heq, hnona, hsorted⟩ := ih hs.2
      refine ⟨DVal.d v :: ds, k, by rw [List.cons_append, heq], ?_, ?_⟩
      · intro y hy
        rcases List.mem_cons.mp hy with rfl | hmem
        · simp
        · exact hnona y hmem
      · rw [List.sorted_cons]
        refine ⟨fun b hb => hs.1 b ?_, hsorted⟩
        rw [heq]
        exact List.mem_append_left _ hb

theorem ffillD_shape (l : List DVal) (h : List.Sorted dle l) :
    List.Sorted dle (ffillD none l)
    ∧ ((∀ x ∈ ffillD none l, x ≠ DVal.na) ∨ (∀ x ∈ ffillD none l, x = DVal.na)) := by
  obtain ⟨ds, k, rfl, hnona, hsorted⟩ := sorted_split l h
  rcases eq_or_ne ds [] with rfl | hne
  · rw [List.nil_append, ffillD_replicate_na]
    constructor
    · exact sorted_replicate _ (dle_refl _) k
    · right
      intro x hx
      exact List.eq_of_mem_replicate hx
  · rw [ffillD_app_noNa ds none _ hnona, ffillD_replicate_na]
    have hlast : lastCarry none ds = some (ds.getLast hne) := by
      unfold lastCarry
      rw [List.getLast?_eq_getLast ds hne]
    rw [hlast]
    constructor
    · show List.Pairwise dle (ds ++ List.replicate k ((some (ds.getLast hne)).getD DVal.na))
      rw [List.pairwise_append]
      refine ⟨hsorted, sorted_replicate _ (dle_refl _) k, ?_⟩
      intro a ha b hb
      rw [List.eq_of_mem_replicate hb]
      exact sorted_le_getLast ds hsorted hne a ha
    · left
      intro x hx
      rcases List.mem_append.mp hx with hx | hx
      · exact hnona x hx
      · rw [List.eq_of_mem_replicate hx]
        exact hnona _ (List.getLast_mem hne)

theorem datesOf_bfillFrame (l : List Row) :
    datesOf (bfillFrame l) = (ffillD none ((datesOf l).reverse)).reverse := by
  unfold bfillFrame datesOf
  rw [List.map_reverse,
    show List.map Row.date (ffillRows none [] l.reverse)
      = ffillD none (List.map Row.date l.reverse) from datesOf_ffillRows l.reverse none [],
    List.map_reverse]

theorem datesOf_bfill_noNa (l : List Row) (h : ∀ x ∈ datesOf l, x ≠ DVal.na) :
    datesOf (bfillFrame l) = datesOf l := by
  rw [datesOf_bfillFrame,
    ffillD_noNa_id _ none (fun x hx => h x (List.mem_reverse.mp hx)),
    List.reverse_reverse]

theorem datesOf_bfill_allNa (l : List Row) (h : ∀ x ∈ datesOf l, x = DVal.na) :
    ∀ x ∈ datesOf (bfillFrame l), x = DVal.na := by
  have hrep : datesOf l = List.replicate (datesOf l).length DVal.na :=
    List.eq_replicate_of_mem h
  intro x hx
  rw [datesOf_bfillFrame, hrep, List.reverse_replicate, ffillD_replicate_na,
    List.reverse_replicate] at hx
  exact List.eq_of_mem_replicate hx

theorem clean_data_dates_sorted (df : List Row) :
    List.Sorted dle (datesOf (clean_data df)) := by
  have hs : List.Sorted rle (sortStage df) := List.sorted_insertionSort rle df
  have hsd : List.Sorted dle (datesOf (sortStage df)) := (List.pairwise_map).mpr hs
  have hfd : datesOf (ffillFrame (sortStage df)) = ffillD none (datesOf (sortStage df)) :=
    datesOf_ffillRows _ none []
  have hf := ffillD_shape (datesOf (sortStage df)) hsd
  have hdc : datesOf (clean_data df) = datesOf (dropnaStage df) := by
    unfold clean_data datesOf
    rw [List.map_map]
    rfl
  rcases hf.2 with hno | hall
  · have hb : datesOf (bfillFrame (ffillFrame (sortStage df)))
        = datesOf (ffillFrame (sortStage df)) :=
      datesOf_bfill_noNa _ (by rw [hfd]; exact hno)
    have hbs : List.Sorted dle (datesOf (bfillFrame (ffillFrame (sortStage df)))) := by
      rw [hb, hfd]
      exact hf.1
    have hsub : List.Sublist (dropnaStage df) (bfillFrame (ffillFrame (sortStage df))) :=
      List.filter_sublist _
    have hmsub : List.Sublist (datesOf (dropnaStage df))
        (datesOf (bfillFrame (ffillFrame (sortStage df)))) := hsub.map Row.date
    rw [hdc]
    exact List.Pairwise.sublist hmsub hbs
  · have hallb : ∀ x ∈ datesOf (bfillFrame (ffillFrame (sortStage df))), x = DVal.na :=
      datesOf_bfill_allNa _ (by rw [hfd]; exact hall)
    have hnil : dropnaStage df = [] := by
      unfold dropnaStage
      rw [List.filter_eq_nil_iff]
      intro r hr
      have hna : r.date = DVal.na := hallb r.date (List.mem_map.mpr ⟨r, hr, rfl⟩)
      simp [rowHasNa, hna]
    rw [hdc, hnil]
    exact List.sorted_nil

/-- **C6**: the output of `clean_data` is sorted ascending by `Date`
(adjacent rows are date-ordered) and contains no positive or negative
infinity in any numeric cell; the infinity replacement is a per-row map,
so it drops no rows relative to the `dropna` stage. -/
theorem clean_data_sorted_no_inf (df : List Row) :
    List.Chain' (fun a b => dle a.date b.date) (clean_data df)
    ∧ (∀ r ∈ clean_data df, ∀ c ∈ r.vals, c ≠ Cell.pinf ∧ c ≠ Cell.ninf)
    ∧ (clean_data df).length = (dropnaStage df).length := by
  refine ⟨?_, ?_, by unfold clean_data; rw [List.length_map]⟩
  · have h := clean_data_dates_sorted df
    have hp : List.Pairwise (fun a b => dle a.date b.date) (clean_data df) :=
      (List.pairwise_map).mp h
    exact hp.chain'
  · intro r hr c hc
    unfold clean_data at hr
    obtain ⟨r0, _, rfl⟩ := List.mem_map.mp hr
    simp only [replaceInfRow] at hc
    obtain ⟨c0, _, rfl⟩ := List.mem_map.mp hc
    cases c0 <;> simp [replaceInfCell]

/-- Concrete frame for the C6 witness: out of order, with a missing date,
a missing cell and an infinity. -/
def frameW : List Row := [⟨.d 3, [.num 1]⟩, ⟨.na, [.na]⟩, ⟨.d 1, [.pinf]⟩]

/-- Witness for C6 at a concrete frame: the cleaned output is date-ordered,
the replaced infinity cell is not an infinity, and no row was dropped by
the replacement step. -/
theorem clean_data_sorted_no_inf_witness :
    List.Chain' (fun a b => dle a.date b.date) (clean_data frameW)
    ∧ (Cell.na ≠ Cell.pinf ∧ Cell.na ≠ Cell.ninf)
    ∧ (clean_data frameW).length = (dropnaStage frameW).length :=
  ⟨(clean_data_sorted_no_inf frameW).1,
   (clean_data_sorted_no_inf frameW).2.1 ⟨.d 1, [.na]⟩ (by decide) Cell.na (by decide),
   (clean_data_sorted_no_inf frameW).2.2⟩
